import Mathlib

/-!
Verification development for the reference subsystem of an immutable,
verifiable key-value store, together with the client-side history file
cache.

The store core (transactional commit pipeline, reference resolution,
constraint checking, inclusion/dual proofs) is modelled from the
specification, since only its test surface is part of the repository
fragment; the history file cache is embedded directly from its source.
-/

namespace ImmuSpec

/-- Keys and values are opaque byte strings; bytes are modelled as naturals. -/
abbrev Bytes := List Nat

/-- Kind of a committed entry: a regular value, or a reference carrying a
target key and a bound-at transaction id (`atTx = 0` means unbound). -/
inductive EntryKind where
  | regular (value : Bytes)
  | reference (targetKey : Bytes) (atTx : Nat)
deriving DecidableEq, Repr

/-- One entry of a committed transaction. -/
structure TxEntry where
  key : Bytes
  kind : EntryKind
deriving DecidableEq, Repr

/-- A committed transaction: its ordered list of entries.  The transaction id
is implicit: the transaction at position `i` of the log has id `i + 1`. -/
abbrev Tx := List TxEntry

/-- Store configuration limits. -/
structure StoreOpts where
  maxKeyLen : Nat
  maxTxEntries : Nat
deriving DecidableEq, Repr

/-- Modelled from the spec: the store state is the append-only log of
committed transactions together with the configured limits.  The key-value
index is derived from the log (see `lastUpdate`). -/
structure DB where
  opts : StoreOpts
  txs : List Tx
deriving DecidableEq, Repr

/-- Modelled from the spec: the user-visible error surface of the commit
pipeline and read path. -/
inductive Err where
  | illegalArguments
  | keyNotFound
  | constraintFailed
  | invalidConstraints
  | finalKeyCannotBeConvertedIntoReference
  | referencedKeyCannotBeAReference
deriving DecidableEq, Repr

/-- A commit-time precondition over one key (`KVConstraints` in the schema). -/
structure Constraint where
  key : Bytes
  mustExist : Bool
  mustNotExist : Bool
deriving DecidableEq, Repr

/-- A `SetReference` request.  A `none` element of `constraints` models a nil
constraint pointer. -/
structure RefReq where
  key : Bytes
  referencedKey : Bytes
  atTx : Nat
  boundRef : Bool
  constraints : List (Option Constraint)
deriving DecidableEq, Repr

/-- First entry with the given key inside one transaction. -/
def lookupInTx (k : Bytes) : Tx → Option EntryKind
  | [] => none
  | e :: rest => if e.key = k then some e.kind else lookupInTx k rest

/-- Helper for `lastUpdate`: scan the log, preferring later transactions;
`n` is the id of the head transaction. -/
def lastUpdateAux (k : Bytes) : List Tx → Nat → Option (Nat × EntryKind)
  | [], _ => none
  | tx :: rest, n =>
    match lastUpdateAux k rest (n + 1) with
    | some r => some r
    | none =>
      match lookupInTx k tx with
      | some e => some (n, e)
      | none => none

/-- Modelled from the spec: the key-value index maps a key to the latest
transaction that wrote it, together with the entry written there. -/
def lastUpdate (db : DB) (k : Bytes) : Option (Nat × EntryKind) :=
  lastUpdateAux k db.txs 1

/-- Modelled from the spec: load the entry with key `k` from transaction
`txId`, or report not-found. -/
def readEntry (db : DB) (txId : Nat) (k : Bytes) : Option EntryKind :=
  if txId = 0 then none
  else
    match db.txs[txId - 1]? with
    | some tx => lookupInTx k tx
    | none => none

/-- Resolve a referenced key: unbound (`atTx = 0`) resolves at the current
snapshot, bound (`atTx > 0`) loads from that exact transaction. -/
def resolveTarget (db : DB) (k : Bytes) (atTx : Nat) : Option (Nat × EntryKind) :=
  if atTx = 0 then lastUpdate db k
  else (readEntry db atTx k).map (fun e => (atTx, e))

/-- Modelled from the spec: digests form a free algebra over hash inputs
(the idealized collision-free hash): the zero seed, a version-selected
digest of an encoded entry spec, an inner Merkle node, and the accumulated
linking hash over a header's fields. -/
inductive Digest where
  | zero
  | entry (version : Nat) (spec : Bytes)
  | node (l r : Digest)
  | hdr (prevAlh : Digest) (id : Nat) (eh : Digest)
deriving DecidableEq, Repr

/-- Version tag of the current entry-digest scheme. -/
def currentVersion : Nat := 1

/-- Modelled from the spec: `EncodeReference(ref_key, value_unused, target_key,
at_tx)` — deterministic byte layout of a reference entry: a kind tag, the
reference key, the length-prefixed target key, and the bound-at id.  Lengths
and ids are abstracted as single unbounded naturals. -/
def EncodeReference (refKey : Bytes) (_valueUnused : Option Bytes)
    (targetKey : Bytes) (atTx : Nat) : Bytes :=
  1 :: refKey.length :: (refKey ++ targetKey.length :: (targetKey ++ [atTx]))

/-- Modelled from the spec: deterministic byte layout of a regular entry. -/
def encodeRegular (k v : Bytes) : Bytes :=
  0 :: k.length :: (k ++ v)

/-- Encoded entry spec of a committed entry. -/
def encodeEntry (e : TxEntry) : Bytes :=
  match e.kind with
  | .regular v => encodeRegular e.key v
  | .reference t a => EncodeReference e.key none t a

/-- Modelled from the spec: `EntrySpecDigestFor(version)` selects the digest
function by the header's version tag; only the current version is defined. -/
def EntrySpecDigestFor (v : Nat) : Option (Bytes → Digest) :=
  if v = currentVersion then some (Digest.entry v) else none

/-- Digest of one committed entry under the current scheme. -/
def entryDigest (e : TxEntry) : Digest :=
  Digest.entry currentVersion (encodeEntry e)

/-- Binary hash tree over the ordered digests of one transaction's entries. -/
inductive HTree where
  | leaf (d : Digest)
  | node (l r : HTree)
deriving DecidableEq, Repr

/-- Build the hash tree over a nonempty digest list (head plus tail). -/
def buildHT (d : Digest) (rest : List Digest) : HTree :=
  rest.foldl (fun t d' => HTree.node t (HTree.leaf d')) (HTree.leaf d)

/-- Root digest of a hash tree. -/
def htreeRoot : HTree → Digest
  | .leaf d => d
  | .node l r => .node (htreeRoot l) (htreeRoot r)

/-- Number of leaves of a hash tree. -/
def numLeaves : HTree → Nat
  | .leaf _ => 1
  | .node l r => numLeaves l + numLeaves r

/-- Sibling path from the `i`-th leaf to the root; each step records whether
the current node is a right child and the sibling's digest, ordered from the
leaf upwards. -/
def pathToLeaf : HTree → Nat → Option (List (Bool × Digest))
  | .leaf _, 0 => some []
  | .leaf _, _ + 1 => none
  | .node l r, i =>
    if i < numLeaves l then
      (pathToLeaf l i).map (fun p => p ++ [(false, htreeRoot r)])
    else
      (pathToLeaf r (i - numLeaves l)).map (fun p => p ++ [(true, htreeRoot l)])

/-- Recompute a root from a leaf digest and a sibling path. -/
def rootFromPath (path : List (Bool × Digest)) (leaf : Digest) : Digest :=
  path.foldl
    (fun acc step => if step.1 then Digest.node step.2 acc else Digest.node acc step.2)
    leaf

/-- Modelled from the spec: `VerifyInclusion` recomputes the root from the
leaf digest and the sibling path and compares it to the supplied `EH`. -/
def VerifyInclusion (path : List (Bool × Digest)) (leaf : Digest) (eh : Digest) : Bool :=
  decide (rootFromPath path leaf = eh)

/-- Merkle root `EH` over the ordered digests of a transaction's entries. -/
def txEH (tx : Tx) : Digest :=
  match tx.map entryDigest with
  | [] => .zero
  | d :: rest => htreeRoot (buildHT d rest)

/-- Modelled from the spec: the accumulated linking hash after transaction
`n`: `Alh(0)` is the zero seed and `Alh(n) = H(Alh(n-1) ‖ n ‖ EH(n))`. -/
def alhAt (txs : List Tx) (n : Nat) : Digest :=
  (List.range n).foldl (fun acc i => Digest.hdr acc (i + 1) (txEH (txs.getD i []))) .zero

/-- Header of a committed transaction: id, digest-scheme version, Merkle root
over the entries, and accumulated linking hash. -/
structure TxHeader where
  id : Nat
  version : Nat
  eh : Digest
  alh : Digest
deriving DecidableEq, Repr

/-- Header of transaction `i` of a log. -/
def headerAt (txs : List Tx) (i : Nat) : TxHeader :=
  ⟨i, currentVersion, txEH (txs.getD (i - 1) []), alhAt txs i⟩

/-- Modelled from the spec: a dual proof carries the source and target
headers and the `EH` values of the transactions linking them, enabling
recomputation of the `Alh` chain. -/
structure DualProof where
  sourceTxHeader : TxHeader
  targetTxHeader : TxHeader
  ehs : List Digest
deriving DecidableEq, Repr

/-- Recompute an `Alh` chain: starting from the `Alh` of transaction `a`,
fold in the `EH` values of transactions `a+1`, `a+2`, …. -/
def chainAlh (acc : Digest) (a : Nat) : List Digest → Digest
  | [] => acc
  | e :: rest => chainAlh (Digest.hdr acc (a + 1) e) (a + 1) rest

/-- Modelled from the spec: `VerifyDualProof` checks that the proof links the
caller's trusted `Alh` of the source transaction to the claimed `Alh` of the
target transaction by recomputing the chain. -/
def VerifyDualProof (dp : DualProof) (a b : Nat) (trustedA claimedB : Digest) : Bool :=
  decide (dp.sourceTxHeader.id = a) && decide (dp.targetTxHeader.id = b) &&
  decide (a ≤ b) &&
  decide (dp.sourceTxHeader.alh = trustedA) && decide (dp.targetTxHeader.alh = claimedB) &&
  decide (dp.ehs.length = b - a) &&
  decide (chainAlh trustedA a dp.ehs = claimedB)

/-- Build the dual proof between transactions `a` and `b` of a log. -/
def buildDualProof (txs : List Tx) (a b : Nat) : DualProof :=
  ⟨headerAt txs a, headerAt txs b,
    (List.range (b - a)).map (fun i => txEH (txs.getD (a + i) []))⟩

/-- Entry returned by a read: resolved key, value, and writing transaction. -/
structure RetEntry where
  key : Bytes
  value : Bytes
  tx : Nat
deriving DecidableEq, Repr

/-- Shape check of one constraint element: not nil, key within the configured
maximum length. -/
def constraintShapeOk (opts : StoreOpts) : Option Constraint → Bool
  | none => false
  | some c => decide (c.key.length ≤ opts.maxKeyLen)

/-- Modelled from the spec: shape rules of the constraint list — no nil
element, no oversized key, and the number of constraints plus the number of
entries of the transaction within `maxTxEntries`. -/
def checkShape (opts : StoreOpts) (cs : List (Option Constraint)) (nEntries : Nat) : Bool :=
  cs.all (constraintShapeOk opts) && decide (cs.length + nEntries ≤ opts.maxTxEntries)

/-- Evaluate one (non-nil) constraint against the committed index. -/
def evalConstraint (db : DB) : Option Constraint → Bool
  | none => true
  | some c =>
    let present := (lastUpdate db c.key).isSome
    (!c.mustExist || present) && (!c.mustNotExist || !present)

/-- Modelled from the spec: the commit proceeds iff every constraint holds. -/
def evalConstraints (db : DB) (cs : List (Option Constraint)) : Bool :=
  cs.all (evalConstraint db)

/-- Modelled from the spec: append one transaction, assigning the next id and
computing the header (`EH`, `Alh`).  Persistence is atomic, so success is the
only outcome modelled. -/
def commitTx (db : DB) (tx : Tx) : Except Err TxHeader × DB :=
  let txs' := db.txs ++ [tx]
  let n := db.txs.length + 1
  (.ok ⟨n, currentVersion, txEH tx, alhAt txs' n⟩, ⟨db.opts, txs'⟩)

/-- Modelled from the spec: `Set(KVs)` validates the request and commits one
transaction of regular entries; on failure the store is unchanged. -/
def set (db : DB) (kvs : List (Bytes × Bytes)) : Except Err TxHeader × DB :=
  if kvs.isEmpty || kvs.any (fun kv => kv.1.isEmpty) then (.error .illegalArguments, db)
  else commitTx db (kvs.map fun kv => ⟨kv.1, .regular kv.2⟩)

/-- Modelled from the spec: `SetReference` validates the request (nil request,
empty keys, impossible bound/at-tx combination, self-loop, missing target,
reference target, constraint shape, constraint evaluation — in that order)
and commits one reference entry; on failure the store is unchanged.  The
stored bound-at id is the request's `atTx` when `boundRef`, else 0. -/
def setReference (db : DB) (req? : Option RefReq) : Except Err TxHeader × DB :=
  match req? with
  | none => (.error .illegalArguments, db)
  | some req =>
    if req.key.isEmpty || req.referencedKey.isEmpty then (.error .illegalArguments, db)
    else if req.boundRef ∧ req.atTx = 0 then (.error .illegalArguments, db)
    else if req.boundRef ∧ db.txs.length < req.atTx then (.error .illegalArguments, db)
    else if req.key = req.referencedKey then
      (.error .finalKeyCannotBeConvertedIntoReference, db)
    else
      match resolveTarget db req.referencedKey (if req.boundRef then req.atTx else 0) with
      | none => (.error .keyNotFound, db)
      | some (_, .reference _ _) => (.error .referencedKeyCannotBeAReference, db)
      | some (_, .regular _) =>
        if !checkShape db.opts req.constraints 1 then (.error .invalidConstraints, db)
        else if !evalConstraints db req.constraints then (.error .constraintFailed, db)
        else commitTx db [⟨req.key, .reference req.referencedKey
          (if req.boundRef then req.atTx else 0)⟩]

/-- Modelled from the spec: `Get(key, since_tx)` resolves the latest entry of
the key; a reference is chased one level (latest target value when unbound,
the exact bound transaction when bound) and the returned triple carries the
target's key, value and writing transaction.  A `since_tx` beyond the
current tip is modelled as a failed wait. -/
def get (db : DB) (k : Bytes) (sinceTx : Nat) : Except Err RetEntry :=
  if db.txs.length < sinceTx then .error .illegalArguments
  else
    match lastUpdate db k with
    | none => .error .keyNotFound
    | some (t, .regular v) => .ok ⟨k, v, t⟩
    | some (_, .reference target atTx) =>
      match resolveTarget db target atTx with
      | none => .error .keyNotFound
      | some (_, .reference _ _) => .error .referencedKeyCannotBeAReference
      | some (t2, .regular v) => .ok ⟨target, v, t2⟩

/-- Index of the first entry with the given key inside one transaction. -/
def idxOfKey : Tx → Bytes → Option Nat
  | [], _ => none
  | e :: rest, k =>
    if e.key = k then some 0 else (idxOfKey rest k).map (· + 1)

/-- Inclusion proof of the entry with key `k` inside one transaction. -/
def inclusionProofFor (tx : Tx) (k : Bytes) : Option (List (Bool × Digest)) :=
  match tx.map entryDigest, idxOfKey tx k with
  | d :: rest, some i => pathToLeaf (buildHT d rest) i
  | _, _ => none

/-- Modelled from the spec: `VerifiableGet` returns the resolved entry, the
header of the transaction holding the (possibly reference) stored entry, and
the inclusion proof of that entry within its transaction.  `prove_since_tx`
must lie in `[1, tip]`. -/
def verifiableGet (db : DB) (k : Bytes) (sinceTx proveSinceTx : Nat) :
    Except Err (RetEntry × TxHeader × List (Bool × Digest)) :=
  if proveSinceTx = 0 ∨ db.txs.length < proveSinceTx then
    .error .illegalArguments
  else
    match get db k sinceTx with
    | .error e => .error e
    | .ok ent =>
      match lastUpdate db k with
      | none => .error .keyNotFound
      | some (t, _) =>
        match inclusionProofFor (db.txs.getD (t - 1) []) k with
        | none => .error .keyNotFound
        | some path => .ok (ent, headerAt db.txs t, path)

/-- Modelled from the spec: `VerifiableSetReference` requires `prove_since_tx`
in `[1, tip]`, performs the reference commit, and returns the new header with
the dual proof linking `prove_since_tx` to the new transaction. -/
def verifiableSetReference (db : DB) (req? : Option RefReq) (proveSinceTx : Nat) :
    Except Err (TxHeader × DualProof) × DB :=
  if proveSinceTx = 0 ∨ db.txs.length < proveSinceTx then
    (.error .illegalArguments, db)
  else
    match setReference db req? with
    | (.ok hdr, db') => (.ok (hdr, buildDualProof db'.txs proveSinceTx hdr.id), db')
    | (.error e, db') => (.error e, db')

/-- A write operation of the commit pipeline. -/
inductive Op where
  | opSet (kvs : List (Bytes × Bytes))
  | opSetRef (req? : Option RefReq)
deriving DecidableEq, Repr

/-- Apply one write operation. -/
def applyOp (db : DB) : Op → Except Err TxHeader × DB
  | .opSet kvs => set db kvs
  | .opSetRef req? => setReference db req?

/-- Run a sequence of write operations, collecting the transaction ids
returned by the successful commits in order. -/
def runOps (db : DB) : List Op → List Nat × DB
  | [] => ([], db)
  | op :: rest =>
    match applyOp db op with
    | (.ok hdr, db') =>
      let r := runOps db' rest
      (hdr.id :: r.1, r.2)
    | (.error _, db') => runOps db' rest

/-- Go `strings.Split` with a one-character separator. -/
def splitOnChar (sep : Char) : List Char → List (List Char)
  | [] => [[]]
  | c :: rest =>
    if c = sep then [] :: splitOnChar sep rest
    else
      match splitOnChar sep rest with
      | [] => [[c]]
      | g :: gs => (c :: g) :: gs

/-- Go `strings.Join` with a one-character separator. -/
def joinWithChar (sep : Char) : List (List Char) → List Char
  | [] => []
  | [l] => l
  | l :: ls => l ++ sep :: joinWithChar sep ls

/-- Whether the first list is an initial segment of the second. -/
def prefixMatches : List Char → List Char → Bool
  | [], _ => true
  | _ :: _, [] => false
  | a :: as, b :: bs => decide (a = b) && prefixMatches as bs

/-- Go `strings.Contains`: whether `pat` occurs as a contiguous substring. -/
def hasSubstr (pat : List Char) : List Char → Bool
  | [] => pat.isEmpty
  | c :: rest => prefixMatches pat (c :: rest) || hasSubstr pat rest

/-- Standard base64 alphabet. -/
def b64Alphabet : List Char :=
  ['A', 'B', 'C', 'D', 'E', 'F', 'G', 'H', 'I', 'J', 'K', 'L', 'M',
   'N', 'O', 'P', 'Q', 'R', 'S', 'T', 'U', 'V', 'W', 'X', 'Y', 'Z',
   'a', 'b', 'c', 'd', 'e', 'f', 'g', 'h', 'i', 'j', 'k', 'l', 'm',
   'n', 'o', 'p', 'q', 'r', 's', 't', 'u', 'v', 'w', 'x', 'y', 'z',
   '0', '1', '2', '3', '4', '5', '6', '7', '8', '9', '+', '/']

/-- Character of one base64 sextet. -/
def b64Char (n : Nat) : Char := b64Alphabet.getD n 'A'

/-- Go `base64.StdEncoding.EncodeToString`: three bytes become four
characters, with `=` padding for one- or two-byte tails. -/
def b64EncodeRaw : List Nat → List Char
  | [] => []
  | [a] => [b64Char (a / 4 % 64), b64Char (a % 4 * 16), '=', '=']
  | [a, b] => [b64Char (a / 4 % 64), b64Char (a % 4 * 16 + b / 16 % 16), b64Char (b % 16 * 4), '=']
  | a :: b :: c :: rest =>
    b64Char (a / 4 % 64) :: b64Char (a % 4 * 16 + b / 16 % 16) ::
      b64Char (b % 16 * 4 + c / 64 % 4) :: b64Char (c % 64) :: b64EncodeRaw rest

/-- Index of a character in the base64 alphabet. -/
def b64CharIndex (c : Char) : Option Nat := b64Alphabet.indexOf? c

/-- Go `base64.StdEncoding.DecodeString`: four characters become three bytes,
honouring `=` padding; an invalid character fails. -/
def b64DecodeRaw : List Char → Option (List Nat)
  | [] => some []
  | c1 :: c2 :: '=' :: ['='] =>
    match b64CharIndex c1, b64CharIndex c2 with
    | some a, some b => some [a * 4 + b / 16]
    | _, _ => none
  | c1 :: c2 :: c3 :: ['='] =>
    match b64CharIndex c1, b64CharIndex c2, b64CharIndex c3 with
    | some a, some b, some c => some [a * 4 + b / 16, b % 16 * 16 + c / 4]
    | _, _, _ => none
  | c1 :: c2 :: c3 :: c4 :: rest =>
    match b64CharIndex c1, b64CharIndex c2, b64CharIndex c3, b64CharIndex c4,
        b64DecodeRaw rest with
    | some a, some b, some c, some d, some bs =>
      some ((a * 4 + b / 16) :: (b % 16 * 16 + c / 4) :: (c % 4 * 64 + d) :: bs)
    | _, _, _, _, _ => none
  | _ => none

/-- Embedded from `historyFileCache.Set`: split the current `.state` file
content on newlines, replace every line containing `dbName + ":"` with the
new record `dbName + ":" + base64(marshalled state) + "\n"`, append the
record if no line matched, and join the lines back with newlines.  A missing
file reads as the empty string; `proto.Marshal` is modelled as the identity
on the state's byte sequence. -/
def cacheSet (input : List Char) (dbName : List Char) (raw : List Nat) : List Char :=
  let lines := splitOnChar '\n' input
  let newState := dbName ++ ':' :: (b64EncodeRaw raw ++ ['\n'])
  let pat := dbName ++ [':']
  let matched := lines.any (fun l => hasSubstr pat l)
  let lines' :=
    if matched then lines.map (fun l => if hasSubstr pat l then newState else l)
    else lines ++ [newState]
  joinWithChar '\n' lines'

/-- Error surface of `historyFileCache.unmarshalRoot`. -/
inductive CacheErr where
  | couldNotFindPreviousState
deriving DecidableEq, Repr

/-- Embedded from the line loop of `historyFileCache.unmarshalRoot`: on the
first line containing `dbName + ":"`, split the line on every `":"`, fail
with "could not find previous state" unless exactly two parts result or if
base64 decoding fails, else return the decoded state. -/
def findStateLine (pat : List Char) : List (List Char) → Except CacheErr (Option (List Nat))
  | [] => .ok none
  | line :: rest =>
    if hasSubstr pat line then
      let r := splitOnChar ':' line
      if r.length ≠ 2 then .error .couldNotFindPreviousState
      else
        match b64DecodeRaw (r.getD 1 []) with
        | none => .error .couldNotFindPreviousState
        | some bytes => .ok (some bytes)
    else findStateLine pat rest

/-- Embedded from `historyFileCache.unmarshalRoot`: split the `.state` file
content on newlines and scan for the database's record; `proto.Unmarshal` is
modelled as the identity on the byte sequence.  No matching line yields no
state and no error. -/
def unmarshalRoot (raw : List Char) (dbName : List Char) : Except CacheErr (Option (List Nat)) :=
  findStateLine (dbName ++ [':']) (splitOnChar '\n' raw)

/-- The transaction committed by a successful `Set`. -/
def setTxOf (kvs : List (Bytes × Bytes)) : Tx :=
  kvs.map fun kv => ⟨kv.1, .regular kv.2⟩

/-- The single reference entry committed by a successful `SetReference`. -/
def refEntryOf (req : RefReq) : TxEntry :=
  ⟨req.key, .reference req.referencedKey (if req.boundRef then req.atTx else 0)⟩

/-- Store configuration used by the concrete examples. -/
def wOpts : StoreOpts := ⟨100, 10⟩

/-- Empty example store. -/
def wDb0 : DB := ⟨wOpts, []⟩

/-- Example store with one write: key `[1]` holds `[2]` since tx 1. -/
def wDb1 : DB := ⟨wOpts, [[⟨[1], .regular [2]⟩]]⟩

/-- Example store with two writes of key `[7]`: `[11]` at tx 1, `[12]` at tx 2. -/
def wDb2 : DB := ⟨wOpts, [[⟨[7], .regular [11]⟩], [⟨[7], .regular [12]⟩]]⟩

/-- Example store `wDb2` after committing the bound reference `[20] → [7]`
at tx 1. -/
def wDb3 : DB :=
  ⟨wOpts, [[⟨[7], .regular [11]⟩], [⟨[7], .regular [12]⟩], [⟨[20], .reference [7] 1⟩]]⟩

/-- Example store where the unbound reference `[21] → [7]` is committed at
tx 2 and the target key `[7]` is rewritten afterwards, at tx 3. -/
def wDb4 : DB :=
  ⟨wOpts, [[⟨[7], .regular [11]⟩], [⟨[21], .reference [7] 0⟩], [⟨[7], .regular [12]⟩]]⟩

/-- Example store `wDb1` after committing the unbound reference `[9] → [1]`. -/
def wRefDb : DB := ⟨wOpts, [[⟨[1], .regular [2]⟩], [⟨[9], .reference [1] 0⟩]]⟩

/-- Entry hash of `wRefDb`'s first transaction. -/
def wEh1 : Digest := .entry 1 [0, 1, 1, 2]

/-- Accumulated linking hash after `wRefDb`'s first transaction. -/
def wAlh1 : Digest := .hdr .zero 1 wEh1

/-- Entry hash of `wRefDb`'s second (reference) transaction. -/
def wEh2 : Digest := .entry 1 [1, 1, 9, 1, 1, 0]

/-- Accumulated linking hash after `wRefDb`'s second transaction. -/
def wAlh2 : Digest := .hdr wAlh1 2 wEh2

/-- Header of `wRefDb`'s first transaction. -/
def wHdr1 : TxHeader := ⟨1, 1, wEh1, wAlh1⟩

/-- Header of `wRefDb`'s second transaction. -/
def wHdr2 : TxHeader := ⟨2, 1, wEh2, wAlh2⟩

/-- Dual proof linking transactions 1 and 2 of `wRefDb`. -/
def wDp : DualProof := ⟨wHdr1, wHdr2, [wEh2]⟩

theorem set_ok {db : DB} {kvs : List (Bytes × Bytes)} {hdr : TxHeader} {db' : DB}
    (h : set db kvs = (.ok hdr, db')) :
    hdr = ⟨db.txs.length + 1, currentVersion, txEH (setTxOf kvs),
        alhAt (db.txs ++ [setTxOf kvs]) (db.txs.length + 1)⟩ ∧
    db' = ⟨db.opts, db.txs ++ [setTxOf kvs]⟩ := by
  unfold set at h
  split at h
  · simp at h
  · simp only [commitTx, Prod.mk.injEq, Except.ok.injEq] at h
    exact ⟨h.1.symm, h.2.symm⟩

theorem setReference_ok {db : DB} {req : RefReq} {hdr : TxHeader} {db' : DB}
    (h : setReference db (some req) = (.ok hdr, db')) :
    hdr = ⟨db.txs.length + 1, currentVersion, txEH [refEntryOf req],
        alhAt (db.txs ++ [[refEntryOf req]]) (db.txs.length + 1)⟩ ∧
    db' = ⟨db.opts, db.txs ++ [[refEntryOf req]]⟩ ∧
    req.key ≠ req.referencedKey := by
  simp only [setReference] at h
  split at h
  · simp at h
  · split at h
    · simp at h
    · split at h
      · simp at h
      · split at h
        · simp at h
        · rename_i hne
          split at h
          · simp at h
          · simp at h
          · split at h
            · simp at h
            · split at h
              · simp at h
              · simp only [commitTx, Prod.mk.injEq, Except.ok.injEq] at h
                exact ⟨h.1.symm, h.2.symm, hne⟩

theorem setReference_err {db : DB} {req? : Option RefReq} {e : Err} {db' : DB}
    (h : setReference db req? = (.error e, db')) : db' = db := by
  unfold setReference at h
  repeat' split at h
  all_goals simp_all [commitTx]

theorem set_err {db : DB} {kvs : List (Bytes × Bytes)} {e : Err} {db' : DB}
    (h : set db kvs = (.error e, db')) : db' = db := by
  unfold set at h
  split at h
  · simp_all
  · simp_all [commitTx]

theorem applyOp_ok {db : DB} {op : Op} {hdr : TxHeader} {db' : DB}
    (h : applyOp db op = (.ok hdr, db')) :
    hdr.id = db.txs.length + 1 ∧ db'.txs.length = db.txs.length + 1 := by
  cases op with
  | opSet kvs =>
    obtain ⟨h1, h2⟩ := set_ok h
    subst h1; subst h2; simp
  | opSetRef req? =>
    cases req? with
    | none => simp [applyOp, setReference] at h
    | some req =>
      obtain ⟨h1, h2, _⟩ := setReference_ok h
      subst h1; subst h2; simp

theorem applyOp_err {db : DB} {op : Op} {e : Err} {db' : DB}
    (h : applyOp db op = (.error e, db')) : db' = db := by
  cases op with
  | opSet kvs => exact set_err h
  | opSetRef req? => exact setReference_err h

theorem runOps_ids (ops : List Op) : ∀ db : DB,
    (runOps db ops).1 = List.range' (db.txs.length + 1) (runOps db ops).1.length := by
  induction ops with
  | nil => intro db; simp [runOps]
  | cons op rest ih =>
    intro db
    simp only [runOps]
    cases hap : applyOp db op with
    | mk res db' =>
      cases res with
      | ok hdr =>
        obtain ⟨hid, hlen⟩ := applyOp_ok hap
        simp only [List.length_cons, List.range'_succ, hid]
        have := ih db'
        rw [hlen] at this
        exact congrArg (fun l => (db.txs.length + 1) :: l) this
      | error e =>
        rw [applyOp_err hap]
        exact ih db

/-- C1: on a fresh store, the transaction ids returned by the successful
commits of any sequence of `Set`/`SetReference` operations are exactly
`1, 2, 3, …`: dense, strictly increasing from 1, with failed operations
consuming no id. -/
theorem C1_monotone_dense_tx_ids (opts : StoreOpts) (ops : List Op) :
    (runOps ⟨opts, []⟩ ops).1 =
      List.range' 1 (runOps ⟨opts, []⟩ ops).1.length := by
  simpa using runOps_ids ops ⟨opts, []⟩

theorem lastUpdateAux_append_found {k : Bytes} {tx : Tx} {e : EntryKind}
    (hfind : lookupInTx k tx = some e) :
    ∀ (txs : List Tx) (n : Nat), lastUpdateAux k (txs ++ [tx]) n = some (n + txs.length, e) := by
  intro txs
  induction txs with
  | nil =>
    intro n
    simp [lastUpdateAux, hfind]
  | cons t ts ih =>
    intro n
    show (match lastUpdateAux k (ts ++ [tx]) (n + 1) with
      | some r => some r
      | none =>
        match lookupInTx k t with
        | some e' => some (n, e')
        | none => none) = some (n + (ts.length + 1), e)
    rw [ih (n + 1)]
    show some (n + 1 + ts.length, e) = some (n + (ts.length + 1), e)
    have harith : n + 1 + ts.length = n + (ts.length + 1) := by omega
    rw [harith]

theorem lastUpdate_append_found {o : StoreOpts} {txs : List Tx} {tx : Tx} {k : Bytes}
    {e : EntryKind} (hfind : lookupInTx k tx = some e) :
    lastUpdate ⟨o, txs ++ [tx]⟩ k = some (txs.length + 1, e) := by
  unfold lastUpdate
  rw [lastUpdateAux_append_found hfind txs 1, Nat.add_comm]

theorem lastUpdateAux_append_none {k : Bytes} {tx : Tx}
    (hfind : lookupInTx k tx = none) :
    ∀ (txs : List Tx) (n : Nat), lastUpdateAux k (txs ++ [tx]) n = lastUpdateAux k txs n := by
  intro txs
  induction txs with
  | nil =>
    intro n
    simp [lastUpdateAux, hfind]
  | cons t ts ih =>
    intro n
    show (match lastUpdateAux k (ts ++ [tx]) (n + 1) with
      | some r => some r
      | none =>
        match lookupInTx k t with
        | some e => some (n, e)
        | none => none) =
      (match lastUpdateAux k ts (n + 1) with
      | some r => some r
      | none =>
        match lookupInTx k t with
        | some e => some (n, e)
        | none => none)
    rw [ih (n + 1)]

theorem lastUpdate_append_none {o : StoreOpts} {txs : List Tx} {tx : Tx} {k : Bytes}
    (hfind : lookupInTx k tx = none) :
    lastUpdate ⟨o, txs ++ [tx]⟩ k = lastUpdate ⟨o, txs⟩ k := by
  unfold lastUpdate
  exact lastUpdateAux_append_none hfind txs 1

theorem readEntry_append {o : StoreOpts} {txs more : List Tx} {txId : Nat} {k : Bytes}
    (h : txId ≤ txs.length) :
    readEntry ⟨o, txs ++ more⟩ txId k = readEntry ⟨o, txs⟩ txId k := by
  unfold readEntry
  by_cases h0 : txId = 0
  · simp [h0]
  · rw [if_neg h0, if_neg h0]
    have : (txs ++ more)[txId - 1]? = txs[txId - 1]? :=
      List.getElem?_append_left (by omega)
    rw [this]

theorem readEntry_le_length {db : DB} {txId : Nat} {k : Bytes} {e : EntryKind}
    (h : readEntry db txId k = some e) : 1 ≤ txId ∧ txId ≤ db.txs.length := by
  unfold readEntry at h
  by_cases h0 : txId = 0
  · rw [if_pos h0] at h
    simp at h
  · rw [if_neg h0] at h
    by_cases hlt : txId - 1 < db.txs.length
    · exact ⟨by omega, by omega⟩
    · rw [List.getElem?_eq_none (by omega)] at h
      simp at h

/-- C3: after a bound reference `ref → k` at transaction `a` (where `k` held
`v1`) commits — even though `k` was rewritten with `v2` at a later
transaction `b` — every `Get(ref)` with a sufficient `since_tx` returns
`{key := k, value := v1, tx := a}`, ignoring all later writes to `k`. -/
theorem C3_bound_reference_snapshot_lock
    (db : DB) (k ref v1 v2 : Bytes) (a b s : Nat) (cs : List (Option Constraint))
    (hdr : TxHeader) (db' : DB)
    (hv1 : readEntry db a k = some (.regular v1))
    (hv2 : readEntry db b k = some (.regular v2))
    (hab : a < b)
    (hcommit : setReference db (some ⟨ref, k, a, true, cs⟩) = (.ok hdr, db'))
    (hs : s ≤ db'.txs.length) :
    get db' ref s = .ok ⟨k, v1, a⟩ := by
  obtain ⟨hhdr, hdb', hne⟩ := setReference_ok hcommit
  obtain ⟨ha1, hale⟩ := readEntry_le_length hv1
  have hentry : refEntryOf ⟨ref, k, a, true, cs⟩ =
      ⟨ref, .reference k a⟩ := by simp [refEntryOf]
  rw [hentry] at hdb'
  subst hdb'
  have hfound : lookupInTx ref [(⟨ref, .reference k a⟩ : TxEntry)] =
      some (.reference k a) := by simp [lookupInTx]
  have hlu := @lastUpdate_append_found db.opts db.txs _ _ _ hfound
  have hre : readEntry ⟨db.opts, db.txs ++ [[⟨ref, .reference k a⟩]]⟩ a k =
      some (.regular v1) := by
    rw [readEntry_append hale]
    exact hv1
  have hs' : s ≤ db.txs.length + 1 := by simpa using hs
  unfold get
  rw [if_neg (by simp only [List.length_append, List.length_cons, List.length_nil]; omega)]
  simp only [hlu]
  unfold resolveTarget
  rw [if_neg (by omega : ¬ a = 0), hre]
  rfl

/-- C4: for every store whose latest entry at `ref` is an unbound reference
to `k` — no matter which transactions, including later rewrites of `k`,
follow the reference's commit — `Get(ref)` with a sufficient `since_tx`
returns the target key `k`, the latest committed value of `k` at the read
snapshot, and the transaction id that wrote that latest value. -/
theorem C4_unbound_reference_resolves_latest
    (db : DB) (k ref v : Bytes) (tr t s : Nat)
    (href : lastUpdate db ref = some (tr, .reference k 0))
    (hlast : lastUpdate db k = some (t, .regular v))
    (hs : s ≤ db.txs.length) :
    get db ref s = .ok ⟨k, v, t⟩ := by
  unfold get
  rw [if_neg (by omega)]
  simp only [href]
  unfold resolveTarget
  rw [if_pos rfl, hlast]

theorem isEmpty_false_of_ne {α : Type} {k : List α} (hk : k ≠ []) : k.isEmpty = false := by
  cases k
  · exact absurd rfl hk
  · rfl

/-- C7: a `SetReference` request whose reference key equals its referenced
key, with otherwise legal arguments, fails with
`FinalKeyCannotBeConvertedIntoReference` and commits no transaction. -/
theorem C7_self_loop_rejected (db : DB) (k : Bytes) (atTx : Nat) (bound : Bool)
    (cs : List (Option Constraint))
    (hk : k ≠ [])
    (hb0 : ¬(bound = true ∧ atTx = 0))
    (hbtip : bound = true → atTx ≤ db.txs.length) :
    setReference db (some ⟨k, k, atTx, bound, cs⟩) =
      (.error .finalKeyCannotBeConvertedIntoReference, db) := by
  simp only [setReference]
  rw [if_neg (by simp [isEmpty_false_of_ne hk])]
  rw [if_neg hb0]
  rw [if_neg (fun hb => absurd (hbtip hb.1) (by omega))]
  simp

/-- C6: when the latest committed entry at the referenced key is itself a
reference, a `SetReference` to it fails with
`ReferencedKeyCannotBeAReference` and commits no transaction. -/
theorem C6_reference_to_reference_rejected
    (db : DB) (r1 r2 tk : Bytes) (a t : Nat) (cs : List (Option Constraint))
    (h1 : lastUpdate db r1 = some (t, .reference tk a))
    (hr1 : r1 ≠ []) (hr2 : r2 ≠ []) (hneq : r2 ≠ r1) :
    setReference db (some ⟨r2, r1, 0, false, cs⟩) =
      (.error .referencedKeyCannotBeAReference, db) := by
  simp only [setReference]
  rw [if_neg (by simp [isEmpty_false_of_ne hr1, isEmpty_false_of_ne hr2])]
  rw [if_neg (by simp)]
  rw [if_neg (by simp)]
  rw [if_neg hneq]
  have hres : resolveTarget db r1 (if (false : Bool) = true then 0 else 0) =
      some (t, .reference tk a) := by
    simp [resolveTarget, h1]
  simp only [hres]

/-- C8: a `SetReference` whose constraint list violates a shape rule — a nil
element, a key longer than `maxKeyLen`, or more constraints plus entries
than `maxTxEntries` — fails with `InvalidConstraints` and commits no
transaction. -/
theorem C8_invalid_constraint_shapes
    (db : DB) (key target v : Bytes) (t : Nat) (cs : List (Option Constraint))
    (hk : key ≠ []) (ht : target ≠ []) (hneq : key ≠ target)
    (htgt : lastUpdate db target = some (t, .regular v))
    (hbad : none ∈ cs ∨ (∃ c : Constraint, some c ∈ cs ∧ db.opts.maxKeyLen < c.key.length) ∨
      db.opts.maxTxEntries < cs.length + 1) :
    setReference db (some ⟨key, target, 0, false, cs⟩) =
      (.error .invalidConstraints, db) := by
  have hshape : checkShape db.opts cs 1 = false := by
    unfold checkShape
    rcases hbad with hnil | ⟨c, hc, hlen⟩ | hcount
    · have hall : cs.all (constraintShapeOk db.opts) = false := by
        rw [List.all_eq_false]
        exact ⟨none, hnil, by simp [constraintShapeOk]⟩
      simp [hall]
    · have hall : cs.all (constraintShapeOk db.opts) = false := by
        rw [List.all_eq_false]
        refine ⟨some c, hc, ?_⟩
        simp [constraintShapeOk]
        omega
      simp [hall]
    · have hcnt : decide (cs.length + 1 ≤ db.opts.maxTxEntries) = false := by
        simp
        omega
      simp [hcnt]
  simp only [setReference]
  rw [if_neg (by simp [isEmpty_false_of_ne hk, isEmpty_false_of_ne ht])]
  rw [if_neg (by simp)]
  rw [if_neg (by simp)]
  rw [if_neg hneq]
  have hres : resolveTarget db target (if (false : Bool) = true then 0 else 0) =
      some (t, .regular v) := by
    simp [resolveTarget, htgt]
  simp only [hres]
  simp [hshape]

/-- C5: a well-formed constraint list that evaluates to false makes
`SetReference` fail with `ConstraintFailed`, the store is unchanged, and a
subsequent `Get` on the intended reference key (absent from the index)
still reports `KeyNotFound`. -/
theorem C5_constraint_failed_atomicity
    (db : DB) (key target v : Bytes) (t s : Nat) (cs : List (Option Constraint))
    (hk : key ≠ []) (ht : target ≠ []) (hneq : key ≠ target)
    (htgt : lastUpdate db target = some (t, .regular v))
    (hshape : checkShape db.opts cs 1 = true)
    (hfails : evalConstraints db cs = false)
    (habsent : lastUpdate db key = none)
    (hs : s ≤ db.txs.length) :
    setReference db (some ⟨key, target, 0, false, cs⟩) =
      (.error .constraintFailed, db) ∧
    get db key s = .error .keyNotFound := by
  constructor
  · simp only [setReference]
    rw [if_neg (by simp [isEmpty_false_of_ne hk, isEmpty_false_of_ne ht])]
    rw [if_neg (by simp)]
    rw [if_neg (by simp)]
    rw [if_neg hneq]
    have hres : resolveTarget db target (if (false : Bool) = true then 0 else 0) =
        some (t, .regular v) := by
      simp [resolveTarget, htgt]
    simp only [hres]
    simp [hshape, hfails]
  · unfold get
    rw [if_neg (by omega)]
    simp only [habsent]

theorem alhAt_succ (txs : List Tx) (n : Nat) :
    alhAt txs (n + 1) = .hdr (alhAt txs n) (n + 1) (txEH (txs.getD n [])) := by
  unfold alhAt
  rw [List.range_succ, List.foldl_append]
  rfl

theorem alhAt_append_left {txs more : List Tx} {n : Nat} (h : n ≤ txs.length) :
    alhAt (txs ++ more) n = alhAt txs n := by
  induction n with
  | zero => rfl
  | succ m ih =>
    rw [alhAt_succ, alhAt_succ, ih (by omega)]
    have hget : (txs ++ more).getD m [] = txs.getD m [] := by
      rw [List.getD_eq_getElem?_getD, List.getD_eq_getElem?_getD,
        List.getElem?_append_left (by omega)]
    rw [hget]

theorem chainAlh_range (txs : List Tx) : ∀ (n a : Nat),
    chainAlh (alhAt txs a) a ((List.range n).map fun i => txEH (txs.getD (a + i) [])) =
      alhAt txs (a + n) := by
  intro n
  induction n with
  | zero =>
    intro a
    simp [chainAlh]
  | succ m ih =>
    intro a
    rw [List.range_succ_eq_map]
    simp only [List.map_cons, List.map_map]
    show chainAlh (Digest.hdr (alhAt txs a) (a + 1) (txEH (txs.getD (a + 0) []))) (a + 1)
      ((List.range m).map fun i => txEH (txs.getD (a + Nat.succ i) [])) = alhAt txs (a + (m + 1))
    rw [show a + 0 = a from rfl, ← alhAt_succ]
    have hfun : ((List.range m).map fun i => txEH (txs.getD (a + Nat.succ i) [])) =
        (List.range m).map fun i => txEH (txs.getD ((a + 1) + i) []) := by
      apply List.map_congr_left
      intro i _
      have : a + Nat.succ i = (a + 1) + i := by omega
      rw [this]
    rw [hfun, ih (a + 1)]
    have : (a + 1) + m = a + (m + 1) := by omega
    rw [this]

theorem getD_concat_self (l : List Tx) (x : Tx) : (l ++ [x]).getD l.length [] = x := by
  induction l with
  | nil => rfl
  | cons a as ih => simpa using ih

/-- C2: for a successful verifiable reference commit with `prove_since_tx`
`p` in `[1, tip]`, the returned dual proof verifies between the trusted
`Alh` of transaction `p` and the `Alh` of the returned header; and a
verifiable read of the reference entry yields an inclusion proof that
verifies against the returned header's `EH` with leaf
`EntrySpecDigestFor(version)` applied to the encoded reference entry. -/
theorem C2_roundtrip_verifiability
    (db db' : DB) (key target : Bytes) (atTx p q s : Nat) (bound : Bool)
    (cs : List (Option Constraint)) (hdr : TxHeader) (dp : DualProof)
    (ent : RetEntry) (gh : TxHeader) (ip : List (Bool × Digest))
    (hset : verifiableSetReference db (some ⟨key, target, atTx, bound, cs⟩) p =
      (.ok (hdr, dp), db'))
    (hget : verifiableGet db' key s q = .ok (ent, gh, ip)) :
    VerifyDualProof dp p hdr.id (alhAt db.txs p) hdr.alh = true ∧
    ∃ f, EntrySpecDigestFor gh.version = some f ∧
      VerifyInclusion ip (f (EncodeReference key none target (if bound then atTx else 0)))
        gh.eh = true := by
  unfold verifiableSetReference at hset
  split at hset
  · simp at hset
  · rename_i hp
    push_neg at hp
    obtain ⟨hp0, hple⟩ := hp
    cases hsr : setReference db (some ⟨key, target, atTx, bound, cs⟩) with
    | mk res db0 =>
      rw [hsr] at hset
      cases res with
      | error e => simp at hset
      | ok hdr0 =>
        simp only [Prod.mk.injEq, Except.ok.injEq] at hset
        obtain ⟨⟨hhdr, hdp⟩, hdb0⟩ := hset
        obtain ⟨hhdr0, hdb0', hne⟩ := setReference_ok hsr
        subst hdb0
        subst hhdr
        subst hdp
        subst hhdr0
        subst hdb0'
        constructor
        · have halhpre : alhAt (db.txs ++ [[refEntryOf ⟨key, target, atTx, bound, cs⟩]]) p
              = alhAt db.txs p := alhAt_append_left hple
          have hchain : chainAlh (alhAt db.txs p) p
              ((List.range ((db.txs.length + 1) - p)).map fun i =>
                txEH ((db.txs ++ [[refEntryOf ⟨key, target, atTx, bound, cs⟩]]).getD (p + i) []))
              = alhAt (db.txs ++ [[refEntryOf ⟨key, target, atTx, bound, cs⟩]])
                  (db.txs.length + 1) := by
            rw [← halhpre, chainAlh_range]
            congr 1
            omega
          unfold VerifyDualProof buildDualProof headerAt
          simp only [Bool.and_eq_true, decide_eq_true_eq, List.length_map,
            List.length_range, halhpre, hchain]
          refine ⟨⟨⟨⟨⟨⟨?_, ?_⟩, ?_⟩, ?_⟩, ?_⟩, ?_⟩, ?_⟩ <;> first | omega | trivial
        · have hlook : lookupInTx key [refEntryOf ⟨key, target, atTx, bound, cs⟩] =
              some (refEntryOf ⟨key, target, atTx, bound, cs⟩).kind := by
            simp [lookupInTx, refEntryOf]
          have hlu := @lastUpdate_append_found db.opts db.txs _ _ _ hlook
          unfold verifiableGet at hget
          split at hget
          · simp at hget
          · cases hg : get ⟨db.opts, db.txs ++ [[refEntryOf ⟨key, target, atTx, bound, cs⟩]]⟩
                key s with
            | error e => rw [hg] at hget; simp at hget
            | ok ent0 =>
              rw [hg] at hget
              simp only [hlu] at hget
              have hgd : (db.txs ++ [[refEntryOf ⟨key, target, atTx, bound, cs⟩]]).getD
                  (db.txs.length + 1 - 1) [] = [refEntryOf ⟨key, target, atTx, bound, cs⟩] := by
                simp only [Nat.add_sub_cancel]
                exact getD_concat_self db.txs _
              rw [hgd] at hget
              have hproof : inclusionProofFor [refEntryOf ⟨key, target, atTx, bound, cs⟩] key =
                  some [] := by
                simp [inclusionProofFor, idxOfKey, refEntryOf, buildHT, pathToLeaf]
              rw [hproof] at hget
              simp only [Except.ok.injEq, Prod.mk.injEq] at hget
              obtain ⟨hent, hgh, hip⟩ := hget
              rw [← hgh, ← hip]
              refine ⟨Digest.entry currentVersion, ?_, ?_⟩
              · simp [EntrySpecDigestFor, headerAt]
              · unfold headerAt
                simp only [Nat.add_sub_cancel]
                rw [getD_concat_self]
                simp only [VerifyInclusion, decide_eq_true_eq]
                rfl

/-- Witness for C3 at the spec's concrete scenario: after two writes of
`[7]` and a bound reference `[20] → [7]` at tx 1, `Get` returns the tx-1
value. -/
theorem C3_witness : get wDb3 [20] 3 = .ok ⟨[7], [11], 1⟩ :=
  C3_bound_reference_snapshot_lock wDb2 [7] [20] [11] [12] 1 2 3 []
    ⟨3, currentVersion, txEH [⟨[20], .reference [7] 1⟩], alhAt wDb3.txs 3⟩ wDb3
    (by decide) (by decide) (by decide) (by rfl) (by decide)

/-- Witness for C4: the unbound reference `[21] → [7]` committed at tx 2
resolves, at a read after the later rewrite of `[7]`, to the value `[12]`
written at tx 3 — after the reference's commit. -/
theorem C4_witness : get wDb4 [21] 3 = .ok ⟨[7], [12], 3⟩ :=
  C4_unbound_reference_resolves_latest wDb4 [7] [21] [12] 2 3 3
    (by decide) (by decide) (by decide)

/-- Witness for C5: a `MustExist` constraint on the absent key `[5]` fails
the commit and `Get [5]` still reports key-not-found. -/
theorem C5_witness :
    setReference wDb1 (some ⟨[5], [1], 0, false, [some ⟨[5], true, false⟩]⟩) =
      (.error .constraintFailed, wDb1) ∧
    get wDb1 [5] 1 = .error .keyNotFound :=
  C5_constraint_failed_atomicity wDb1 [5] [1] [2] 1 1 [some ⟨[5], true, false⟩]
    (by decide) (by decide) (by decide) (by decide) (by decide) (by decide)
    (by decide) (by decide)

/-- Witness for C6: referencing the committed reference `[20]` fails with
`ReferencedKeyCannotBeAReference`. -/
theorem C6_witness :
    setReference wDb3 (some ⟨[22], [20], 0, false, []⟩) =
      (.error .referencedKeyCannotBeAReference, wDb3) :=
  C6_reference_to_reference_rejected wDb3 [20] [22] [7] 1 3 []
    (by decide) (by decide) (by decide) (by decide)

/-- Witness for C7: the self-loop request `[1] → [1]` fails with
`FinalKeyCannotBeConvertedIntoReference`. -/
theorem C7_witness :
    setReference wDb0 (some ⟨[1], [1], 0, false, []⟩) =
      (.error .finalKeyCannotBeConvertedIntoReference, wDb0) :=
  C7_self_loop_rejected wDb0 [1] 0 false []
    (by decide) (by decide) (by decide)

/-- Witness for C8: a constraint list containing a nil element fails with
`InvalidConstraints`. -/
theorem C8_witness :
    setReference wDb1 (some ⟨[5], [1], 0, false, [none]⟩) =
      (.error .invalidConstraints, wDb1) :=
  C8_invalid_constraint_shapes wDb1 [5] [1] [2] 1 [none]
    (by decide) (by decide) (by decide) (by decide) (Or.inl (by decide))

theorem b64Char_ne (n : Nat) : b64Char n ≠ ':' ∧ b64Char n ≠ '\n' := by
  have hball : ∀ m, m < 64 →
      b64Alphabet.getD m 'A' ≠ ':' ∧ b64Alphabet.getD m 'A' ≠ '\n' := by decide
  unfold b64Char
  by_cases h : n < 64
  · exact hball n h
  · rw [List.getD_eq_default]
    · decide
    · have hlen : b64Alphabet.length = 64 := rfl
      omega

theorem b64EncodeRaw_chars : ∀ (raw : List Nat) (c : Char), c ∈ b64EncodeRaw raw →
    (∃ n, c = b64Char n) ∨ c = '=' := by
  intro raw
  induction raw using b64EncodeRaw.induct with
  | case1 =>
    intro c hc
    simp [b64EncodeRaw] at hc
  | case2 a =>
    intro c hc
    simp only [b64EncodeRaw, List.mem_cons, List.not_mem_nil, or_false] at hc
    rcases hc with h | h | h | h
    · exact Or.inl ⟨_, h⟩
    · exact Or.inl ⟨_, h⟩
    · exact Or.inr h
    · exact Or.inr h
  | case3 a b =>
    intro c hc
    simp only [b64EncodeRaw, List.mem_cons, List.not_mem_nil, or_false] at hc
    rcases hc with h | h | h | h
    · exact Or.inl ⟨_, h⟩
    · exact Or.inl ⟨_, h⟩
    · exact Or.inl ⟨_, h⟩
    · exact Or.inr h
  | case4 a b c' rest ih =>
    intro c hc
    simp only [b64EncodeRaw, List.mem_cons] at hc
    rcases hc with h | h | h | h | h
    · exact Or.inl ⟨_, h⟩
    · exact Or.inl ⟨_, h⟩
    · exact Or.inl ⟨_, h⟩
    · exact Or.inl ⟨_, h⟩
    · exact ih c h

theorem b64_no_colon_newline (raw : List Nat) :
    ':' ∉ b64EncodeRaw raw ∧ '\n' ∉ b64EncodeRaw raw := by
  constructor
  · intro hmem
    rcases b64EncodeRaw_chars raw ':' hmem with ⟨n, hn⟩ | h
    · exact (b64Char_ne n).1 hn.symm
    · exact absurd h (by decide)
  · intro hmem
    rcases b64EncodeRaw_chars raw '\n' hmem with ⟨n, hn⟩ | h
    · exact (b64Char_ne n).2 hn.symm
    · exact absurd h (by decide)

theorem splitOnChar_not_mem {c : Char} : ∀ {l : List Char}, c ∉ l →
    splitOnChar c l = [l] := by
  intro l
  induction l with
  | nil => intro; rfl
  | cons a as ih =>
    intro h
    have h1 : ¬ (a = c) := fun hh => h (hh ▸ List.mem_cons_self a as)
    have h2 : c ∉ as := fun hh => h (List.mem_cons_of_mem a hh)
    unfold splitOnChar
    rw [if_neg h1, ih h2]

theorem splitOnChar_append_sep {c : Char} {xs : List Char} (h : c ∉ xs) (ys : List Char) :
    splitOnChar c (xs ++ c :: ys) = xs :: splitOnChar c ys := by
  induction xs with
  | nil =>
    show splitOnChar c (c :: ys) = [] :: splitOnChar c ys
    simp only [splitOnChar]
    simp
  | cons a as ih =>
    have h1 : ¬ (a = c) := fun hh => h (hh ▸ List.mem_cons_self a as)
    have h2 : c ∉ as := fun hh => h (List.mem_cons_of_mem a hh)
    show splitOnChar c (a :: (as ++ c :: ys)) = (a :: as) :: splitOnChar c ys
    simp only [splitOnChar]
    rw [if_neg h1, ih h2]

theorem splitOnChar_length (c : Char) : ∀ l : List Char,
    (splitOnChar c l).length = l.count c + 1 := by
  intro l
  induction l with
  | nil => rfl
  | cons a as ih =>
    unfold splitOnChar
    by_cases h : a = c
    · rw [if_pos h]
      subst h
      simp [List.count_cons_self, ih]
    · rw [if_neg h]
      cases hs : splitOnChar c as with
      | nil =>
        exfalso
        have := ih
        rw [hs] at this
        simp at this
      | cons g gs =>
        have := ih
        rw [hs] at this
        simp only [List.length_cons] at this ⊢
        rw [List.count_cons_of_ne (fun hh => h hh.symm)]
        omega

theorem not_mem_of_mem_splitOnChar (c : Char) : ∀ (l l' : List Char),
    l' ∈ splitOnChar c l → c ∉ l' := by
  intro l
  induction l with
  | nil =>
    intro l' h
    simp [splitOnChar] at h
    subst h
    simp
  | cons a as ih =>
    intro l' h
    unfold splitOnChar at h
    by_cases hac : a = c
    · rw [if_pos hac] at h
      rcases List.mem_cons.mp h with h1 | h2
      · subst h1; simp
      · exact ih _ h2
    · rw [if_neg hac] at h
      cases hs : splitOnChar c as with
      | nil =>
        rw [hs] at h
        simp at h
        subst h
        simp
        exact fun hh => hac hh.symm
      | cons g gs =>
        rw [hs] at h
        rcases List.mem_cons.mp h with h1 | h2
        · subst h1
          intro hmem
          rcases List.mem_cons.mp hmem with hh | hh
          · exact hac hh.symm
          · exact ih g (hs ▸ List.mem_cons_self g gs) hh
        · exact ih l' (hs ▸ List.mem_cons_of_mem g h2)

theorem prefixMatches_append (pat rest : List Char) :
    prefixMatches pat (pat ++ rest) = true := by
  induction pat with
  | nil => rfl
  | cons a as ih => simp [prefixMatches, ih]

theorem hasSubstr_append (pat rest : List Char) (hne : pat ≠ []) :
    hasSubstr pat (pat ++ rest) = true := by
  cases pat with
  | nil => exact absurd rfl hne
  | cons a as =>
    have hpm : prefixMatches (a :: as) (a :: (as ++ rest)) = true := by
      have := prefixMatches_append (a :: as) rest
      simpa using this
    show (prefixMatches (a :: as) (a :: (as ++ rest)) ||
      hasSubstr (a :: as) (as ++ rest)) = true
    rw [hpm, Bool.true_or]

theorem mem_of_prefixMatches : ∀ (pat s : List Char), prefixMatches pat s = true →
    ∀ x ∈ pat, x ∈ s := by
  intro pat
  induction pat with
  | nil =>
    intro s h x hx
    simp at hx
  | cons a as ih =>
    intro s h x hx
    cases s with
    | nil => simp [prefixMatches] at h
    | cons b bs =>
      simp only [prefixMatches, Bool.and_eq_true, decide_eq_true_eq] at h
      obtain ⟨hab, hpm⟩ := h
      rcases List.mem_cons.mp hx with h1 | h2
      · subst h1
        subst hab
        exact List.mem_cons_self _ _
      · exact List.mem_cons_of_mem _ (ih bs hpm x h2)

theorem mem_of_hasSubstr {pat : List Char} {x : Char} (hx : x ∈ pat) :
    ∀ s : List Char, hasSubstr pat s = true → x ∈ s := by
  intro s
  induction s with
  | nil =>
    intro h
    cases pat with
    | nil => simp at hx
    | cons _ _ => simp [hasSubstr] at h
  | cons b bs ih =>
    intro h
    rw [show hasSubstr pat (b :: bs) =
      (prefixMatches pat (b :: bs) || hasSubstr pat bs) from rfl,
      Bool.or_eq_true] at h
    rcases h with h1 | h2
    · exact mem_of_prefixMatches pat (b :: bs) h1 x hx
    · exact List.mem_cons_of_mem _ (ih h2)

theorem findStateLine_no_match (pat : List Char) : ∀ lines : List (List Char),
    (∀ l ∈ lines, hasSubstr pat l = false) → findStateLine pat lines = .ok none := by
  intro lines
  induction lines with
  | nil => intro; rfl
  | cons l ls ih =>
    intro h
    unfold findStateLine
    rw [if_neg (by rw [h l (List.mem_cons_self _ _)]; simp)]
    exact ih (fun l' hl' => h l' (List.mem_cons_of_mem _ hl'))

/-- Witness for C2 at the spec's concrete scenario: one `Set`, a verifiable
reference commit proved since tx 1, and a verifiable read of the reference;
both the dual proof and the inclusion proof verify. -/
theorem C2_witness :
    VerifyDualProof wDp 1 wHdr2.id (alhAt wDb1.txs 1) wHdr2.alh = true ∧
    ∃ f, EntrySpecDigestFor wHdr2.version = some f ∧
      VerifyInclusion [] (f (EncodeReference [9] none [1] 0)) wHdr2.eh = true :=
  C2_roundtrip_verifiability wDb1 wRefDb [9] [1] 0 1 1 2 false []
    wHdr2 wDp ⟨[1], [2], 1⟩ wHdr2 [] (by rfl) (by rfl)

/-- C9: the history file cache stores one `dbName:base64(state)` line per
database, matches lines by the substring `dbName + ":"` and splits matched
lines on every `":"`; consequently, for every database name containing
`':'`, a `Set` followed by a `Get` does not round-trip: the read either
fails with "could not find previous state" or yields a state different
from the one stored. -/
theorem C9_colon_db_name_breaks_roundtrip (dbName : List Char) (raw : List Nat)
    (h : ':' ∈ dbName) :
    unmarshalRoot (cacheSet [] dbName raw) dbName = .error .couldNotFindPreviousState ∨
    unmarshalRoot (cacheSet [] dbName raw) dbName ≠ .ok (some raw) := by
  have hpatne : dbName ++ [':'] ≠ [] := by simp
  have hnilsub : hasSubstr (dbName ++ [':']) [] = false := by
    show (dbName ++ [':']).isEmpty = false
    exact isEmpty_false_of_ne hpatne
  have hfile : cacheSet [] dbName raw =
      '\n' :: (dbName ++ ':' :: (b64EncodeRaw raw ++ ['\n'])) := by
    unfold cacheSet
    show joinWithChar '\n'
      (if (splitOnChar '\n' []).any (fun l => hasSubstr (dbName ++ [':']) l) then
        (splitOnChar '\n' []).map (fun l => if hasSubstr (dbName ++ [':']) l then
          dbName ++ ':' :: (b64EncodeRaw raw ++ ['\n']) else l)
      else splitOnChar '\n' [] ++ [dbName ++ ':' :: (b64EncodeRaw raw ++ ['\n'])]) = _
    rw [show splitOnChar '\n' ([] : List Char) = [[]] from rfl]
    rw [if_neg (by simp [hnilsub])]
    rfl
  by_cases hnl : '\n' ∈ dbName
  · right
    have hres : unmarshalRoot (cacheSet [] dbName raw) dbName = .ok none := by
      unfold unmarshalRoot
      apply findStateLine_no_match
      intro l hl
      cases hval : hasSubstr (dbName ++ [':']) l with
      | false => rfl
      | true =>
        exfalso
        have hmem : '\n' ∈ l :=
          mem_of_hasSubstr (by simp [hnl]) l hval
        exact not_mem_of_mem_splitOnChar '\n' _ l hl hmem
    rw [hres]
    simp
  · left
    have hb64 := b64_no_colon_newline raw
    have hnoNl : '\n' ∉ dbName ++ ':' :: b64EncodeRaw raw := by
      simp only [List.mem_append, List.mem_cons, not_or]
      exact ⟨hnl, by decide, hb64.2⟩
    have hassoc : dbName ++ ':' :: (b64EncodeRaw raw ++ ['\n']) =
        (dbName ++ ':' :: b64EncodeRaw raw) ++ '\n' :: [] := by
      simp
    have hsplit : splitOnChar '\n' ('\n' :: (dbName ++ ':' :: (b64EncodeRaw raw ++ ['\n']))) =
        [] :: (dbName ++ ':' :: b64EncodeRaw raw) :: [[]] := by
      rw [show splitOnChar '\n' ('\n' :: (dbName ++ ':' :: (b64EncodeRaw raw ++ ['\n']))) =
        [] :: splitOnChar '\n' (dbName ++ ':' :: (b64EncodeRaw raw ++ ['\n'])) by
          simp only [splitOnChar]
          simp]
      rw [hassoc, splitOnChar_append_sep hnoNl]
      rfl
    have hmatch : hasSubstr (dbName ++ [':']) (dbName ++ ':' :: b64EncodeRaw raw) = true := by
      have : dbName ++ ':' :: b64EncodeRaw raw = (dbName ++ [':']) ++ b64EncodeRaw raw := by
        simp
      rw [this]
      exact hasSubstr_append _ _ hpatne
    have hlen : (splitOnChar ':' (dbName ++ ':' :: b64EncodeRaw raw)).length ≠ 2 := by
      rw [splitOnChar_length]
      have hc1 : 0 < dbName.count ':' := List.count_pos_iff.mpr h
      have hc0 : (b64EncodeRaw raw).count ':' = 0 := by
        rw [List.count_eq_zero]
        exact hb64.1
      rw [List.count_append, List.count_cons_self, hc0]
      omega
    unfold unmarshalRoot
    rw [hfile, hsplit]
    unfold findStateLine
    rw [if_neg (by rw [hnilsub]; simp)]
    unfold findStateLine
    rw [if_pos hmatch, if_pos hlen]

/-- Witness for C9: storing a state for the database named `"a:b"` and
reading it back fails with "could not find previous state". -/
theorem C9_witness :
    unmarshalRoot (cacheSet [] ['a', ':', 'b'] [1, 2, 3]) ['a', ':', 'b'] =
      .error .couldNotFindPreviousState ∨
    unmarshalRoot (cacheSet [] ['a', ':', 'b'] [1, 2, 3]) ['a', ':', 'b'] ≠
      .ok (some [1, 2, 3]) :=
  C9_colon_db_name_breaks_roundtrip ['a', ':', 'b'] [1, 2, 3] (by decide)

end ImmuSpec
